import Mathlib

/-!
Verification of the numeric core of `kepfold` (PyKE, `src/pyke/kepfold.py`):
validity filtering, phase mapping, phase sorting, phase binning and
wrap-around expansion.

Shallow embedding conventions:
* machine floats are modelled over `ℚ`; a float value is `F := Option ℚ`
  where `none` stands for a non-finite entry (NaN or Inf), so NaN
  arithmetic propagates through `Option.map`;
* the parallel numpy columns of the source are modelled as a list of
  per-row records (`Sample`), which is index-aligned with the arrays;
* Python's `sorted` with `key=lambda ph: ph[0]` (source line 288) is a
  stable ascending sort by the first tuple slot; a stable sort by a key
  is extensionally unique, so it is embedded as `List.insertionSort`
  by the phase field (stability of the embedding is proved below);
* `kepstat.mean_err` and `kepfit.lsqclip` live outside the provided
  source tree; they are kept as abstract function parameters `merr`
  and `sigfit` of the binning-reduction stage.
-/

namespace Kepfold

/-- A float value: `none` models a non-finite entry (NaN or Inf). -/
abbrev F := Option ℚ

/-- One row of the input table: the parallel columns used by the core of
`kepfold` (barytime, SAP/PDC/CBV/DET fluxes and uncertainties, SAP_QUALITY).
There is no CBV uncertainty column in the source. -/
structure Sample where
  barytime : F
  sap : F
  saperr : F
  pdc : F
  pdcerr : F
  cbv : F
  det : F
  deterr : F
  quality : ℤ
deriving DecidableEq

/-- The `plottype` argument restricted to the four data channels
(source lines 226-237 select `datacol`/`errcol` from it). -/
inductive PlotType
  | sap
  | pdc
  | cbv
  | det
deriving DecidableEq

/-- The selected-channel value column (source lines 226-237). -/
def datacol : PlotType → Sample → F
  | .sap, s => s.sap
  | .pdc, s => s.pdc
  | .cbv, s => s.cbv
  | .det, s => s.det

/-- The selected-channel uncertainty column; for `cbv` the source picks
`saperr` (line 234). -/
def errcol : PlotType → Sample → F
  | .sap, s => s.saperr
  | .pdc, s => s.pdcerr
  | .cbv, s => s.saperr
  | .det, s => s.deterr

/-- Test `np.isfinite(v) and v != 0.0` (source line 240). -/
def isFinNonzero : F → Bool
  | some d => decide (d ≠ 0)
  | none => false

/-- Test `np.isfinite(v) and v > 0.0` (source line 241). -/
def isFinPos : F → Bool
  | some e => decide (0 < e)
  | none => false

/-- Retention predicate of the validity filter (source lines 238-259):
finite time, finite nonzero selected value, finite positive selected
uncertainty, and (`rejqual` implies) zero quality flag. -/
def keep (pt : PlotType) (rejqual : Bool) (s : Sample) : Bool :=
  s.barytime.isSome && isFinNonzero (datacol pt s) && isFinPos (errcol pt s)
    && (!rejqual || decide (s.quality = 0))

/-- Elementwise division of a float by the cadence normalisation factor;
a non-finite value stays non-finite. -/
def divF (c : ℚ) (v : F) : F := v.map (fun x => x / c)

/-- Division of every flux/uncertainty column of a retained row by
`cadenom` (source lines 261-267); `barytime` is not divided (line 260). -/
def scaleSample (c : ℚ) (s : Sample) : Sample :=
  { s with sap := divF c s.sap, saperr := divF c s.saperr,
           pdc := divF c s.pdc, pdcerr := divF c s.pdcerr,
           cbv := divF c s.cbv, det := divF c s.det, deterr := divF c s.deterr }

/-- The validity-filter stage: retain rows by `keep`, then divide the
flux columns by `cadenom` (source lines 238-267). -/
def filterStage (pt : PlotType) (rejqual : Bool) (c : ℚ) (l : List Sample) :
    List Sample :=
  (l.filter (keep pt rejqual)).map (scaleSample c)

/-- Epoch normalisation: `if bjd0 < bjdref: bjd0 += bjdref`
(source lines 270-271). -/
def adjEpoch (bjdref bjd0 : ℚ) : ℚ :=
  if bjd0 < bjdref then bjd0 + bjdref else bjd0

/-- The phase formula `date/period - floor(date/period)` with
`date = t + bjdref - bjd0` (source lines 272-275). -/
def phaseOf (period bjdref bjd0 t : ℚ) : ℚ :=
  (t + bjdref - adjEpoch bjdref bjd0) / period
    - ⌊(t + bjdref - adjEpoch bjdref bjd0) / period⌋

/-- The full-length phase column `phase1` computed on the unfiltered
`barytime1` array (source lines 272-273); a non-finite time yields a
non-finite phase. Note the source applies no validation to `period`. -/
def phase1List (period bjdref bjd0 : ℚ) (ts : List F) : List F :=
  ts.map (Option.map (phaseOf period bjdref bjd0))

/-- One sorted tuple of the phase-sorting stage, mirroring the nine
slots of `ptuple` (source lines 286-287). -/
structure PSample where
  phase : ℚ
  sap : F
  saperr : F
  pdc : F
  pdcerr : F
  cbv : F
  cbverr : F
  det : F
  deterr : F
deriving DecidableEq

/-- Tuple construction (source lines 285-287). Slot 6 (`cbverr`) carries
`saperr[i]`, not a CBV-specific uncertainty. Retained rows always have a
finite `barytime`, so `getD 0` only unwraps the value. -/
def toPS (period bjdref bjd0 : ℚ) (s : Sample) : PSample :=
  { phase := phaseOf period bjdref bjd0 (s.barytime.getD 0)
    sap := s.sap
    saperr := s.saperr
    pdc := s.pdc
    pdcerr := s.pdcerr
    cbv := s.cbv
    cbverr := s.saperr
    det := s.det
    deterr := s.deterr }

/-- Comparison by the sort key of `sorted(ptuple, key=lambda ph: ph[0])`. -/
def phLE (a b : PSample) : Prop := a.phase ≤ b.phase

instance : DecidableRel phLE :=
  fun a b => inferInstanceAs (Decidable (a.phase ≤ b.phase))

instance : IsTotal PSample phLE := ⟨fun a b => le_total a.phase b.phase⟩

instance : IsTrans PSample phLE := ⟨fun _ _ _ hab hbc => le_trans hab hbc⟩

/-- The list `ptuple` before sorting (source lines 279-287). -/
def tupleList (period bjdref bjd0 : ℚ) (pt : PlotType) (rejqual : Bool)
    (c : ℚ) (l : List Sample) : List PSample :=
  (filterStage pt rejqual c l).map (toPS period bjdref bjd0)

/-- The phase-sorting stage `phsort` (source line 288): stable ascending
sort by the phase slot. -/
def sortStage (period bjdref bjd0 : ℚ) (pt : PlotType) (rejqual : Bool)
    (c : ℚ) (l : List Sample) : List PSample :=
  List.insertionSort phLE (tupleList period bjdref bjd0 pt rejqual c l)

/-- The eight per-channel accumulation buffers `work1`..`work8` of the
binning loop (source lines 311-318 and 386-403). -/
structure Bufs where
  w1 : List F
  w2 : List F
  w3 : List F
  w4 : List F
  w5 : List F
  w6 : List F
  w7 : List F
  w8 : List F
deriving DecidableEq

/-- Buffer reset (source lines 386-393). -/
def emptyBufs : Bufs := ⟨[], [], [], [], [], [], [], []⟩

/-- Initial buffers, pre-seeded with the first sorted sample
(source lines 311-318). -/
def seedBufs (s : PSample) : Bufs :=
  ⟨[s.sap], [s.saperr], [s.pdc], [s.pdcerr], [s.cbv], [s.cbverr],
   [s.det], [s.deterr]⟩

/-- Appending one sample's channel values to the buffers
(source lines 396-403). -/
def pushBuf (b : Bufs) (s : PSample) : Bufs :=
  ⟨b.w1 ++ [s.sap], b.w2 ++ [s.saperr], b.w3 ++ [s.pdc], b.w4 ++ [s.pdcerr],
   b.w5 ++ [s.cbv], b.w6 ++ [s.cbverr], b.w7 ++ [s.det], b.w8 ++ [s.deterr]⟩

/-- One emitted phase bin before reduction: its centre phase
`(nb + 0.5) * dt` and the snapshot of the buffers flushed into it. -/
structure BinEmit where
  center : ℚ
  bufs : Bufs
deriving DecidableEq

/-- The out-of-bin test `rng[i] < nb * dt or rng[i] >= (nb + 1.0) * dt`
(source line 332). -/
def outOfBin (dt : ℚ) (nb : ℕ) (p : ℚ) : Bool :=
  decide (p < (nb : ℚ) * dt) || decide (((nb : ℚ) + 1) * dt ≤ p)

/-- The flush emission: a bin is emitted only when the buffer is
non-empty (`if len(work1) > 0`, source line 333), centred at
`(nb + 0.5) * dt` (source line 334). -/
def flushEmit (dt : ℚ) (nb : ℕ) (buf : Bufs) : List BinEmit :=
  if buf.w1.isEmpty then [] else [⟨((nb : ℚ) + 1 / 2) * dt, buf⟩]

/-- The binning loop body (source lines 331-403). Each traversed sample
is tested once: if it is out of the current bin, the buffer is flushed
(emitted only when non-empty), the buffers reset and `nb` advanced by
exactly one, and the sample itself is not accumulated; otherwise it is
appended to the buffers. Returns the emitted bins, the final bin index
and the final (unflushed) buffers. -/
def binRun (dt : ℚ) : List PSample → ℕ → Bufs → List BinEmit × ℕ × Bufs
  | [], nb, buf => ([], nb, buf)
  | s :: rest, nb, buf =>
    if outOfBin dt nb s.phase then
      let r := binRun dt rest (nb + 1) emptyBufs
      (flushEmit dt nb buf ++ r.1, r.2)
    else
      binRun dt rest nb (pushBuf buf s)

/-- The synthetic wrap point `phase3[0] + 1.0` appended to the traversal
(source line 330). Its channel fields are only read if the wrap point is
appended to a buffer, which cannot happen for a sorted input with phases
in `[0, 1)` (at that index the source would raise an IndexError, since
only the phase array is extended). -/
def wrapPoint (s : PSample) : PSample := { s with phase := s.phase + 1 }

/-- The whole binning stage (source lines 310-403): seed the buffers with
the first sorted sample, traverse the sorted samples plus the wrap point
with bin width `dt = 1/nbins`, and return emitted bins with final state.
The source indexes `sap3[0]` unconditionally, so the empty case never
arises there. -/
def binStageFull (nbins : ℕ) : List PSample → List BinEmit × ℕ × Bufs
  | [] => ([], 0, emptyBufs)
  | s0 :: rest =>
    binRun (1 / (nbins : ℚ)) ((s0 :: rest) ++ [wrapPoint s0]) 0 (seedBufs s0)

/-- The emitted bins of the binning stage. -/
def binStage (nbins : ℕ) (ps : List PSample) : List BinEmit :=
  (binStageFull nbins ps).1

/-- Total number of accumulated entries (per the SAP buffer `work1`,
whose length the source uses as the emptiness test) over a bin list. -/
def sumW1 (bins : List BinEmit) : ℕ :=
  (bins.map (fun b => b.bufs.w1.length)).sum

/-- The finite entries of a buffer, in order. -/
def somes (l : List F) : List ℚ := l.filterMap id

/-- Modelled from the spec: `np.nanmean` (a library call outside the
source tree) — the mean of the finite entries, non-finite when none
remain. -/
def nanmean (l : List F) : F :=
  if (somes l).length = 0 then none
  else some ((somes l).sum / ((somes l).length : ℚ))

/-- Modelled from the spec: `np.nanmedian` (a library call outside the
source tree) — the median of the finite entries, averaging the two
middle elements for even counts, non-finite when none remain. -/
def nanmedian (l : List F) : F :=
  let xs := List.insertionSort (fun a b : ℚ => a ≤ b) (somes l)
  if xs.length = 0 then none
  else if xs.length % 2 = 1 then some (xs.getD (xs.length / 2) 0)
  else some ((xs.getD (xs.length / 2 - 1) 0 + xs.getD (xs.length / 2) 0) / 2)

/-- The `binmethod` argument (source lines 335, 344, 353). -/
inductive BinMethod
  | mean
  | median
  | sigclip
deriving DecidableEq

/-- One reduced row of the binned output: `phase4` and the eight reduced
channel columns `sap4`..`deterr4` (source lines 334-385). -/
structure BinRow where
  phase : ℚ
  sap : F
  saperr : F
  pdc : F
  pdcerr : F
  cbv : F
  cbverr : F
  det : F
  deterr : F
deriving DecidableEq

/-- Flush reduction of one emitted bin (source lines 334-385).
`merr` stands for `kepstat.mean_err` and `sigfit` for the
`kepfit.lsqclip` degree-0 fitted constant (both outside the source
tree, kept abstract). In all three method branches every uncertainty
column is `merr` of the full pre-reduction uncertainty buffer. -/
def reduceBin (m : BinMethod) (merr : List F → F)
    (sigfit : List F → List F → F) (b : BinEmit) : BinRow :=
  match m with
  | .mean =>
    ⟨b.center, nanmean b.bufs.w1, merr b.bufs.w2, nanmean b.bufs.w3,
     merr b.bufs.w4, nanmean b.bufs.w5, merr b.bufs.w6, nanmean b.bufs.w7,
     merr b.bufs.w8⟩
  | .median =>
    ⟨b.center, nanmedian b.bufs.w1, merr b.bufs.w2, nanmedian b.bufs.w3,
     merr b.bufs.w4, nanmedian b.bufs.w5, merr b.bufs.w6, nanmedian b.bufs.w7,
     merr b.bufs.w8⟩
  | .sigclip =>
    ⟨b.center, sigfit b.bufs.w1 b.bufs.w2, merr b.bufs.w2,
     sigfit b.bufs.w3 b.bufs.w4, merr b.bufs.w4,
     sigfit b.bufs.w5 b.bufs.w6, merr b.bufs.w6,
     sigfit b.bufs.w7 b.bufs.w8, merr b.bufs.w8⟩

/-- The reduced binned table (`phase4`, `sap4`, ..., `deterr4`). -/
def binTable (m : BinMethod) (merr : List F → F)
    (sigfit : List F → List F → F) (nbins : ℕ) (ps : List PSample) :
    List BinRow :=
  (binStage nbins ps).map (reduceBin m merr sigfit)

/-- One row of the FOLDED output extension (source lines 423-437): the
binned columns are divided by `cadenom` once more when the table is
assembled; the phase column is not divided. (`cbverr4` is not written
to the FOLDED table; its field is carried unchanged here.) -/
structure FoldedRow where
  phase : ℚ
  sap : F
  saperr : F
  pdc : F
  pdcerr : F
  cbv : F
  det : F
  deterr : F
deriving DecidableEq

/-- Assembly of one FOLDED row from a reduced bin row (source lines
423-437): every flux and uncertainty column divided by `cadenom`. -/
def foldedRow (c : ℚ) (r : BinRow) : FoldedRow :=
  ⟨r.phase, divF c r.sap, divF c r.saperr, divF c r.pdc, divF c r.pdcerr,
   divF c r.cbv, divF c r.det, divF c r.deterr⟩

/-- The FOLDED table of a full pipeline invocation: filter with division
by `cadenom`, phase, sort, bin, reduce, then divide by `cadenom` again. -/
def foldedTable (m : BinMethod) (merr : List F → F)
    (sigfit : List F → List F → F) (nbins : ℕ) (c : ℚ) (pt : PlotType)
    (rejqual : Bool) (period bjdref bjd0 : ℚ) (l : List Sample) :
    List FoldedRow :=
  (binTable m merr sigfit nbins
    (sortStage period bjdref bjd0 pt rejqual c l)).map (foldedRow c)

/-- The wrap-around expansion loops applied to a `(phase, value)` series
(source lines 505-514 for the unbinned series, 488-497 for the binned
one): first the points with phase above one half shifted down by one. -/
def wrapPre : List (ℚ × F) → List (ℚ × F)
  | [] => []
  | q :: rest =>
    (if (1 : ℚ) / 2 < q.1 then [(q.1 - 1, q.2)] else []) ++ wrapPre rest

/-- The trailing wrap-around loop: points with phase at most one half
shifted up by one. -/
def wrapPost : List (ℚ × F) → List (ℚ × F)
  | [] => []
  | q :: rest =>
    (if q.1 ≤ (1 : ℚ) / 2 then [(q.1 + 1, q.2)] else []) ++ wrapPost rest

/-- The wrap-around expander: shifted copies prepended, the originals,
then shifted copies appended (source lines 505-514). -/
def wrapExpand (l : List (ℚ × F)) : List (ℚ × F) :=
  wrapPre l ++ l ++ wrapPost l

/-- A concrete sorted tuple with phase `p`, every flux slot `v` and
every uncertainty slot `1`, used for concrete evaluations. -/
def mkPS (p v : ℚ) : PSample :=
  ⟨p, some v, some 1, some v, some 1, some v, some 1, some v, some 1⟩

/-- Scaling of a sorted tuple: every flux/uncertainty slot divided by
`c`, the phase kept (proof-side auxiliary for the cadence claims). -/
def scalePS (c : ℚ) (p : PSample) : PSample :=
  { p with sap := divF c p.sap, saperr := divF c p.saperr, pdc := divF c p.pdc,
           pdcerr := divF c p.pdcerr, cbv := divF c p.cbv,
           cbverr := divF c p.cbverr, det := divF c p.det,
           deterr := divF c p.deterr }

/-- Scaling of the accumulation buffers elementwise (proof-side
auxiliary). -/
def scaleBufs (c : ℚ) (b : Bufs) : Bufs :=
  ⟨b.w1.map (divF c), b.w2.map (divF c), b.w3.map (divF c), b.w4.map (divF c),
   b.w5.map (divF c), b.w6.map (divF c), b.w7.map (divF c), b.w8.map (divF c)⟩

/-- Scaling of an emitted bin: buffers scaled, centre kept (proof-side
auxiliary). -/
def scaleEmit (c : ℚ) (e : BinEmit) : BinEmit := ⟨e.center, scaleBufs c e.bufs⟩

/-- A concrete filter-stage row with valid selected (SAP) channel and a
non-finite PDC entry (auxiliary-channel NaN). -/
def sAux1 : Sample :=
  ⟨some 0, some 1, some 1, none, some 1, some 1, some 1, some 1, 0⟩

/-- The same row as `sAux1` with the PDC entry finite. -/
def sAux2 : Sample :=
  ⟨some 0, some 1, some 1, some 5, some 1, some 1, some 1, some 1, 0⟩

section Lemmas

/-- Unfolding equation of the binning loop body. -/
lemma binRun_cons (dt : ℚ) (s : PSample) (rest : List PSample) (nb : ℕ)
    (buf : Bufs) :
    binRun dt (s :: rest) nb buf =
      if outOfBin dt nb s.phase then
        (flushEmit dt nb buf ++ (binRun dt rest (nb + 1) emptyBufs).1,
         (binRun dt rest (nb + 1) emptyBufs).2)
      else binRun dt rest nb (pushBuf buf s) := by
  by_cases h : outOfBin dt nb s.phase <;> simp [binRun, h]

lemma sumW1_append (a b : List BinEmit) :
    sumW1 (a ++ b) = sumW1 a + sumW1 b := by
  simp [sumW1]

lemma sumW1_flushEmit (dt : ℚ) (nb : ℕ) (buf : Bufs) :
    sumW1 (flushEmit dt nb buf) = buf.w1.length := by
  by_cases he : buf.w1.isEmpty
  · have h0 : buf.w1 = [] := by
      cases hw : buf.w1 with
      | nil => rfl
      | cons a t => rw [hw] at he; simp [List.isEmpty] at he
    simp [flushEmit, he, sumW1, h0]
  · simp [flushEmit, he, sumW1]

/-- Conservation of accumulated entries through the binning loop: each
traversed sample either adds one entry to the live content (append
branch) or advances the bin index by one (flush branch, dropping the
sample), so content plus bin index grows by exactly the number of
traversed samples. -/
lemma binRun_conservation (dt : ℚ) (l : List PSample) :
    ∀ (nb : ℕ) (buf : Bufs),
      sumW1 (binRun dt l nb buf).1 + (binRun dt l nb buf).2.2.w1.length
          + (binRun dt l nb buf).2.1
        = buf.w1.length + l.length + nb := by
  induction l with
  | nil => intro nb buf; simp [binRun, sumW1]
  | cons s rest ih =>
    intro nb buf
    rw [binRun_cons]
    by_cases h : outOfBin dt nb s.phase
    · have ihr := ih (nb + 1) emptyBufs
      have hemp : emptyBufs.w1.length = 0 := rfl
      rw [hemp] at ihr
      simp only [h, if_true, sumW1_append, sumW1_flushEmit, List.length_cons]
      omega
    · have ihr := ih nb (pushBuf buf s)
      have hpush : (pushBuf buf s).w1.length = buf.w1.length + 1 := by
        simp [pushBuf]
      rw [hpush] at ihr
      simp only [h, if_false, Bool.false_eq_true, List.length_cons]
      omega

/-- The binning loop distributes over list concatenation, threading the
bin index and buffers through. -/
lemma binRun_append (dt : ℚ) (lone : List PSample) :
    ∀ (ltwo : List PSample) (nb : ℕ) (buf : Bufs),
      binRun dt (lone ++ ltwo) nb buf =
        ((binRun dt lone nb buf).1
            ++ (binRun dt ltwo (binRun dt lone nb buf).2.1
                  (binRun dt lone nb buf).2.2).1,
         (binRun dt ltwo (binRun dt lone nb buf).2.1
            (binRun dt lone nb buf).2.2).2) := by
  induction lone with
  | nil => intro ltwo nb buf; simp [binRun]
  | cons s rest ih =>
    intro ltwo nb buf
    rw [List.cons_append, binRun_cons, binRun_cons]
    by_cases h : outOfBin dt nb s.phase
    · simp only [h, if_true]
      rw [ih]
      simp [List.append_assoc]
    · simp only [h, if_false, Bool.false_eq_true]
      exact ih ltwo nb (pushBuf buf s)

/-- Characterisation of the out-of-bin test. -/
lemma outOfBin_eq_true_iff (dt : ℚ) (nb : ℕ) (p : ℚ) :
    outOfBin dt nb p = true ↔ p < (nb : ℚ) * dt ∨ ((nb : ℚ) + 1) * dt ≤ p := by
  simp [outOfBin]

/-- On a phase-sorted run whose remaining samples all lie at or past the
start of the current bin, the final bin index either never moves or its
bin start is bounded by the phase of some traversed sample (the bin
index advances only in response to a sample at or past the next bin). -/
lemma binRun_nb_growth (dt : ℚ) (l : List PSample) :
    ∀ (nb : ℕ) (buf : Bufs),
      List.Sorted phLE l → (∀ s ∈ l, (nb : ℚ) * dt ≤ s.phase) →
      (binRun dt l nb buf).2.1 = nb ∨
        ∃ s ∈ l, (((binRun dt l nb buf).2.1 : ℚ)) * dt ≤ s.phase := by
  induction l with
  | nil => intro nb buf _ _; left; rfl
  | cons s rest ih =>
    intro nb buf hs hlb
    have hrest_sorted : List.Sorted phLE rest := (List.sorted_cons.mp hs).2
    have hhead : ∀ t ∈ rest, s.phase ≤ t.phase :=
      fun t ht => (List.sorted_cons.mp hs).1 t ht
    have hnb_s : (nb : ℚ) * dt ≤ s.phase := hlb s (List.mem_cons_self s rest)
    rw [binRun_cons]
    by_cases h : outOfBin dt nb s.phase
    · simp only [h, if_true]
      have hge : ((nb : ℚ) + 1) * dt ≤ s.phase := by
        rcases (outOfBin_eq_true_iff dt nb s.phase).mp h with hlt | hge2
        · exact absurd hnb_s (not_le.mpr hlt)
        · exact hge2
      have hlb2 : ∀ t ∈ rest, (((nb + 1 : ℕ) : ℚ)) * dt ≤ t.phase := by
        intro t ht
        have hcast : (((nb + 1 : ℕ) : ℚ)) * dt = ((nb : ℚ) + 1) * dt := by
          push_cast; ring
        rw [hcast]
        exact le_trans hge (hhead t ht)
      rcases ih (nb + 1) emptyBufs hrest_sorted hlb2 with heq | hex
      · right
        refine ⟨s, List.mem_cons_self s rest, ?_⟩
        rw [heq]
        have hcast : (((nb + 1 : ℕ) : ℚ)) * dt = ((nb : ℚ) + 1) * dt := by
          push_cast; ring
        rw [hcast]
        exact hge
      · right
        obtain ⟨t, ht, hle⟩ := hex
        exact ⟨t, List.mem_cons_of_mem s ht, hle⟩
    · simp only [h, if_false, Bool.false_eq_true]
      have hlb3 : ∀ t ∈ rest, (nb : ℚ) * dt ≤ t.phase :=
        fun t ht => le_trans hnb_s (hhead t ht)
      rcases ih nb (pushBuf buf s) hrest_sorted hlb3 with heq | hex
      · left; exact heq
      · right
        obtain ⟨t, ht, hle⟩ := hex
        exact ⟨t, List.mem_cons_of_mem s ht, hle⟩

end Lemmas

/-- C1: corrected. The source handles each traversed phase with a single
`if`, not a `while` (line 332): a sample outside the current bin flushes
the buffer (emitting only if non-empty), advances `nb` by exactly one,
and is itself dropped from accumulation — it is not appended after the
advance, and advancing through several empty bins consumes one traversed
sample per advance. Only a sample already inside the current bin is
appended. Consequently the accumulated entries across emitted bins and
the live buffer, plus the bin index, grow together by exactly one per
traversed sample. -/
theorem binAggregator_step_characterization :
    (∀ (dt : ℚ) (s : PSample) (rest : List PSample) (nb : ℕ) (buf : Bufs),
      binRun dt (s :: rest) nb buf =
        if outOfBin dt nb s.phase then
          (flushEmit dt nb buf ++ (binRun dt rest (nb + 1) emptyBufs).1,
           (binRun dt rest (nb + 1) emptyBufs).2)
        else binRun dt rest nb (pushBuf buf s)) ∧
    (∀ (dt : ℚ) (l : List PSample) (nb : ℕ) (buf : Bufs),
      sumW1 (binRun dt l nb buf).1 + (binRun dt l nb buf).2.2.w1.length
          + (binRun dt l nb buf).2.1
        = buf.w1.length + l.length + nb) :=
  ⟨binRun_cons, fun dt l nb buf => binRun_conservation dt l nb buf⟩

/-- C1: counterexample. With `nbins = 2` and the sorted phases
`[1/10, 6/10]` (flux values `1` and `2`), the sample at phase `6/10` is
a traversed non-wrap sample, yet the whole output consists of one bin
whose buffers hold only the first sample (twice: once seeded, once
appended); the value `2` is accumulated nowhere, contradicting the claim
that every traversed sample other than the wrap point is appended into a
bin buffer after the index advances. -/
theorem binAggregator_drops_sample_cex :
    binStage 2 [mkPS (1/10) 1, mkPS (6/10) 2]
      = [⟨1/4, ⟨[some 1, some 1], [some 1, some 1], [some 1, some 1],
          [some 1, some 1], [some 1, some 1], [some 1, some 1],
          [some 1, some 1], [some 1, some 1]⟩⟩] := by
  norm_num [binStage, binStageFull, binRun, outOfBin, flushEmit, pushBuf,
    seedBufs, emptyBufs, wrapPoint, mkPS]

/-- C2: amended. The bin traversal does not put each filtered sample in
exactly one bin: the first sorted sample is pre-seeded into the initial
buffer (and appended a second time when its phase lies in the current
bin), and each out-of-bin sample is dropped. For a sorted nonempty input
with phases in `[0, 1)` and at least one bin, the wrap traversal always
ends in the flush branch, so the final buffer is empty and the sum of
per-bin contributing-entry counts equals the number of filtered samples
plus two minus the final bin index (instead of equalling the number of
filtered samples); moreover a bin whose interval contains no sample
phase can be emitted, carrying the seeded first sample. -/
theorem binAggregator_count_conservation (nbins : ℕ) (ps : List PSample)
    (hn : 1 ≤ nbins) (hne : ps ≠ [])
    (hsorted : List.Sorted phLE ps)
    (hrange : ∀ s ∈ ps, 0 ≤ s.phase ∧ s.phase < 1) :
    (binStageFull nbins ps).2.2.w1 = [] ∧
      sumW1 (binStage nbins ps) + (binStageFull nbins ps).2.1
        = ps.length + 2 := by
  obtain ⟨s0, rest, rfl⟩ : ∃ s0 rest, ps = s0 :: rest := by
    cases ps with
    | nil => exact absurd rfl hne
    | cons a t => exact ⟨a, t, rfl⟩
  have hnq : (1 : ℚ) ≤ (nbins : ℚ) := by exact_mod_cast hn
  have hnpos : (0 : ℚ) < (nbins : ℚ) := lt_of_lt_of_le one_pos hnq
  set dt : ℚ := 1 / (nbins : ℚ) with hdt
  have hdtpos : 0 < dt := by positivity
  set r := binRun dt (s0 :: rest) 0 (seedBufs s0) with hr
  have hs0 : 0 ≤ s0.phase := (hrange s0 (List.mem_cons_self s0 rest)).1
  have hone : (1 : ℚ) ≤ s0.phase + 1 := le_add_of_nonneg_left hs0
  have hlow : ∀ s ∈ s0 :: rest, ((0 : ℕ) : ℚ) * dt ≤ s.phase := by
    intro s hs
    have hnn := (hrange s hs).1
    simpa using hnn
  have hgrow := binRun_nb_growth dt (s0 :: rest) 0 (seedBufs s0) hsorted hlow
  -- the wrap point is always out of the current bin at the end
  have hout : outOfBin dt r.2.1 (wrapPoint s0).phase = true := by
    rw [outOfBin_eq_true_iff]
    right
    have hwp : (wrapPoint s0).phase = s0.phase + 1 := rfl
    rw [hwp]
    rcases hgrow with heq | hex
    · rw [← hr] at heq
      rw [heq]
      have h01 : (((0 : ℕ) : ℚ) + 1) * dt = dt := by norm_num
      rw [h01, hdt]
      calc 1 / (nbins : ℚ) ≤ 1 := by rw [div_le_one hnpos]; exact hnq
      _ ≤ s0.phase + 1 := hone
    · obtain ⟨s, hsmem, hle⟩ := hex
      rw [← hr] at hle
      have hs1 : s.phase < 1 := (hrange s hsmem).2
      have hklt : ((r.2.1 : ℚ)) * dt < 1 := lt_of_le_of_lt hle hs1
      have hkq : ((r.2.1 : ℚ)) < (nbins : ℚ) := by
        rw [hdt] at hklt
        have hdiv : ((r.2.1 : ℚ)) * (1 / (nbins : ℚ)) = (r.2.1 : ℚ) / (nbins : ℚ) := by
          ring
        rw [hdiv, div_lt_one hnpos] at hklt
        exact hklt
      have hkn : r.2.1 < nbins := by exact_mod_cast hkq
      have hk1 : ((r.2.1 : ℚ)) + 1 ≤ (nbins : ℚ) := by
        have hsucc : r.2.1 + 1 ≤ nbins := Nat.succ_le_of_lt hkn
        exact_mod_cast hsucc
      calc ((r.2.1 : ℚ) + 1) * dt ≤ (nbins : ℚ) * dt :=
            mul_le_mul_of_nonneg_right hk1 hdtpos.le
      _ = 1 := by rw [hdt]; field_simp
      _ ≤ s0.phase + 1 := hone
  have happ := binRun_append dt (s0 :: rest) [wrapPoint s0] 0 (seedBufs s0)
  have hwrapstep : binRun dt [wrapPoint s0] r.2.1 r.2.2
      = (flushEmit dt r.2.1 r.2.2, r.2.1 + 1, emptyBufs) := by
    rw [binRun_cons]
    simp [hout, binRun]
  rw [← hr] at happ
  have hcons := binRun_conservation dt ((s0 :: rest) ++ [wrapPoint s0]) 0 (seedBufs s0)
  rw [happ, hwrapstep] at hcons
  simp only [List.length_append, List.length_cons, List.length_nil] at hcons
  have hlen1 : (seedBufs s0).w1.length = 1 := rfl
  have hempty : (emptyBufs).w1.length = 0 := rfl
  rw [hlen1, hempty] at hcons
  constructor
  · show (binRun dt ((s0 :: rest) ++ [wrapPoint s0]) 0 (seedBufs s0)).2.2.w1 = []
    rw [happ, hwrapstep]
    rfl
  · show sumW1 (binRun dt ((s0 :: rest) ++ [wrapPoint s0]) 0 (seedBufs s0)).1
        + (binRun dt ((s0 :: rest) ++ [wrapPoint s0]) 0 (seedBufs s0)).2.1
      = (s0 :: rest).length + 2
    rw [happ, hwrapstep]
    simp only [List.length_cons]
    omega

/-- C2: witness for the amended count conservation, at `nbins = 2` and a
single sample with phase `1/10`: the final buffer is empty and one bin
with two entries (seed plus append) is emitted while the final bin index
is one, so `2 + 1 = 1 + 2`. -/
theorem binAggregator_count_conservation_witness :
    (binStageFull 2 [mkPS (1/10) 1]).2.2.w1 = [] ∧
      sumW1 (binStage 2 [mkPS (1/10) 1]) + (binStageFull 2 [mkPS (1/10) 1]).2.1
        = [mkPS (1/10) 1].length + 2 :=
  binAggregator_count_conservation 2 [mkPS (1/10) 1] (by norm_num)
    (by simp) (List.sorted_singleton _)
    (by
      intro s hs
      rw [List.mem_singleton] at hs
      subst hs
      constructor <;> norm_num [mkPS])

/-- C2: counterexample. With `nbins = 2` and sorted phases `[1/10, 2/10]`
(two filtered samples), the single emitted bin holds three contributing
entries (the first sample is seeded and then appended again), so the sum
of per-bin counts is `3`, not `2`; and with sorted phases `[55/100, 7/10]`
a bin centred at `1/4` — whose interval `[0, 1/2)` contains no sample
phase — is emitted (carrying the seeded first sample). -/
theorem binAggregator_count_cex :
    sumW1 (binStage 2 [mkPS (1/10) 1, mkPS (2/10) 2]) = 3 ∧
      [mkPS (1/10) 1, mkPS (2/10) 2].length = 2 ∧
      (binStage 2 [mkPS (55/100) 1, mkPS (7/10) 2]).map (fun b => b.center)
        = [1/4, 3/4] := by
  refine ⟨?_, rfl, ?_⟩ <;>
    norm_num [binStage, binStageFull, binRun, outOfBin, flushEmit, pushBuf,
      seedBufs, emptyBufs, wrapPoint, mkPS, sumW1]

/-- C3: corrected (amended). The source applies no validation to
`period`: no `InvalidPeriod` error exists anywhere in the fold, and the
phase stage is total — it produces one phase entry per input timestamp
for every `period`, including `period ≤ 0`, instead of failing before
producing output. -/
theorem phase_stage_total_no_period_check (period bjdref bjd0 : ℚ)
    (ts : List F) :
    (phase1List period bjdref bjd0 ts).length = ts.length := by
  simp [phase1List]

/-- C3: counterexample. At `period = -2` (≤ 0) with `bjdref = bjd0 = 0`
and one finite timestamp `3`, the fold computes and emits the phase
value `1/2` rather than failing with an `InvalidPeriod` error. -/
theorem phase_stage_cex : phase1List (-2) 0 0 [some 3] = [some (1/2)] := by
  have hfloor : ⌊(3 : ℚ) / (-2)⌋ = -2 := by
    norm_num
  norm_num [phase1List, phaseOf, adjEpoch, hfloor]

/-- The phase formula is the fractional part of `date / period`. -/
lemma phaseOf_eq_fract (period bjdref bjd0 t : ℚ) :
    phaseOf period bjdref bjd0 t
      = Int.fract ((t + bjdref - adjEpoch bjdref bjd0) / period) := rfl

/-- C4: confirmed. For every timestamp and `period > 0` (in exact
rational arithmetic) the phase `date/period - floor(date/period)` lies
in `[0, 1)` regardless of the sign of `date`, and every phase carried by
the sorted stage lies in `[0, 1)`. -/
theorem phase_in_unit_interval (period bjdref bjd0 : ℚ) (hp : 0 < period) :
    (∀ t : ℚ, 0 ≤ phaseOf period bjdref bjd0 t
        ∧ phaseOf period bjdref bjd0 t < 1) ∧
    (∀ (pt : PlotType) (rq : Bool) (c : ℚ) (l : List Sample),
      ∀ s ∈ sortStage period bjdref bjd0 pt rq c l,
        0 ≤ s.phase ∧ s.phase < 1) := by
  constructor
  · intro t
    rw [phaseOf_eq_fract]
    exact ⟨Int.fract_nonneg _, Int.fract_lt_one _⟩
  · intro pt rq c l s hs
    have hmem : s ∈ tupleList period bjdref bjd0 pt rq c l :=
      (List.perm_insertionSort phLE _).mem_iff.mp hs
    obtain ⟨x, hx, rfl⟩ := List.mem_map.mp hmem
    have hph : (toPS period bjdref bjd0 x).phase
        = phaseOf period bjdref bjd0 (x.barytime.getD 0) := rfl
    rw [hph, phaseOf_eq_fract]
    exact ⟨Int.fract_nonneg _, Int.fract_lt_one _⟩

/-- C4: witness at `period = 5`, `bjdref = bjd0 = 0`, timestamp `7/3`. -/
theorem phase_in_unit_interval_witness :
    (0 : ℚ) < 5 ∧ (0 ≤ phaseOf 5 0 0 (7/3) ∧ phaseOf 5 0 0 (7/3) < 1) :=
  ⟨by norm_num, (phase_in_unit_interval 5 0 0 (by norm_num)).1 (7/3)⟩

/-- Inserting into a list commutes with filtering by an exact phase
value: `orderedInsert` places an element before precisely the suffix of
strictly larger keys, so the subsequence at any fixed key is that of the
cons. -/
lemma orderedInsert_filter_phase (x : PSample) (k : ℚ) :
    ∀ l : List PSample,
      (List.orderedInsert phLE x l).filter (fun s => decide (s.phase = k))
        = ((x :: l).filter (fun s => decide (s.phase = k))) := by
  intro l
  induction l with
  | nil => rfl
  | cons b l ih =>
    rw [List.orderedInsert]
    by_cases h : phLE x b
    · rw [if_pos h]
    · rw [if_neg h]
      have hbx : b.phase < x.phase := not_le.mp h
      by_cases hx : x.phase = k <;> by_cases hb : b.phase = k
      · rw [hx, hb] at hbx
        exact absurd hbx (lt_irrefl k)
      · simp [List.filter_cons, hx, hb, ih]
      · simp [List.filter_cons, hx, hb, ih]
      · simp [List.filter_cons, hx, hb, ih]

/-- Stability of the embedded sort: the subsequence of elements at any
fixed phase value is unchanged by sorting. -/
lemma insertionSort_filter_phase (k : ℚ) :
    ∀ l : List PSample,
      (List.insertionSort phLE l).filter (fun s => decide (s.phase = k))
        = l.filter (fun s => decide (s.phase = k)) := by
  intro l
  induction l with
  | nil => rfl
  | cons a l ih =>
    rw [List.insertionSort, orderedInsert_filter_phase]
    simp only [List.filter_cons, ih]

/-- C5: confirmed. The phase-sorted output is non-decreasing in phase,
is a permutation of the filtered tuples (each tuple carried whole, so
every channel moves in lock-step with its phase), and the sort is
stable: for every phase value the subsequence of tuples at that value
is exactly the input subsequence, so equal-phase samples keep their
original relative order and the output is deterministic. -/
theorem phaseSorter_sorted_stable (period bjdref bjd0 : ℚ) (pt : PlotType)
    (rq : Bool) (c : ℚ) (l : List Sample) :
    List.Sorted phLE (sortStage period bjdref bjd0 pt rq c l) ∧
    (sortStage period bjdref bjd0 pt rq c l).Perm
      (tupleList period bjdref bjd0 pt rq c l) ∧
    ∀ k : ℚ,
      (sortStage period bjdref bjd0 pt rq c l).filter
          (fun s => decide (s.phase = k))
        = (tupleList period bjdref bjd0 pt rq c l).filter
            (fun s => decide (s.phase = k)) :=
  ⟨List.sorted_insertionSort phLE _, List.perm_insertionSort phLE _,
   fun k => insertionSort_filter_phase k _⟩

/-- Semantic characterisation of `isFinNonzero`. -/
lemma isFinNonzero_iff (v : F) :
    isFinNonzero v = true ↔ ∃ d, v = some d ∧ d ≠ 0 := by
  cases v <;> simp [isFinNonzero]

/-- Semantic characterisation of `isFinPos`. -/
lemma isFinPos_iff (v : F) :
    isFinPos v = true ↔ ∃ e, v = some e ∧ 0 < e := by
  cases v <;> simp [isFinPos]

/-- C6: confirmed. Retention depends only on the time column, the
selected channel's value and uncertainty, and the quality flag — two
rows agreeing there are retained or dropped together, so a NaN in a
non-selected channel never causes a drop — and a row is retained iff
its time is finite, the selected value is finite and nonzero, the
selected uncertainty is finite and positive, and (when `rejqual`) the
quality flag is zero. All channels of a retained row are carried by the
same `keep`-filtered row set (`filterStage` maps whole rows). -/
theorem validityFilter_selected_channel (pt : PlotType) (rq : Bool)
    (s1 s2 : Sample) (ht : s1.barytime = s2.barytime)
    (hd : datacol pt s1 = datacol pt s2) (he : errcol pt s1 = errcol pt s2)
    (hq : s1.quality = s2.quality) :
    keep pt rq s1 = keep pt rq s2 ∧
    (keep pt rq s1 = true ↔
      s1.barytime.isSome = true
        ∧ (∃ d, datacol pt s1 = some d ∧ d ≠ 0)
        ∧ (∃ e, errcol pt s1 = some e ∧ 0 < e)
        ∧ (rq = true → s1.quality = 0)) := by
  constructor
  · rw [keep, keep, ht, hd, he, hq]
  · rw [keep]
    simp only [Bool.and_eq_true, Bool.or_eq_true, Bool.not_eq_eq_eq_not,
      Bool.not_true, decide_eq_true_eq, isFinNonzero_iff, isFinPos_iff]
    constructor
    · rintro ⟨⟨⟨hsome, hdc⟩, hec⟩, hqual⟩
      refine ⟨hsome, hdc, hec, ?_⟩
      intro hrq
      rcases hqual with hfalse | hzero
      · rw [hrq] at hfalse; exact absurd hfalse (by simp)
      · exact hzero
    · rintro ⟨hsome, hdc, hec, hqual⟩
      refine ⟨⟨⟨hsome, hdc⟩, hec⟩, ?_⟩
      cases rq with
      | false => left; rfl
      | true => right; exact hqual rfl

/-- C6: witness. The rows `sAux1` (PDC entry non-finite) and `sAux2`
(PDC entry finite) agree on time, SAP value/uncertainty and quality, so
with the SAP channel selected they are retained alike: the auxiliary
NaN does not cause a drop. -/
theorem validityFilter_selected_channel_witness :
    keep PlotType.sap false sAux1 = keep PlotType.sap false sAux2 :=
  (validityFilter_selected_channel PlotType.sap false sAux1 sAux2
    rfl rfl rfl rfl).1

/-- The leading wrap loop is the filter of points past one half mapped
down by one. -/
lemma wrapPre_eq (l : List (ℚ × F)) :
    wrapPre l = (l.filter (fun q => decide ((1 : ℚ)/2 < q.1))).map
        (fun q => (q.1 - 1, q.2)) := by
  induction l with
  | nil => rfl
  | cons q rest ih =>
    by_cases h : (2 : ℚ)⁻¹ < q.1 <;>
      simp [wrapPre, List.filter_cons, one_div, h, ih]

/-- The trailing wrap loop is the filter of points at or below one half
mapped up by one. -/
lemma wrapPost_eq (l : List (ℚ × F)) :
    wrapPost l = (l.filter (fun q => decide (q.1 ≤ (1 : ℚ)/2))).map
        (fun q => (q.1 + 1, q.2)) := by
  induction l with
  | nil => rfl
  | cons q rest ih =>
    by_cases h : q.1 ≤ (2 : ℚ)⁻¹ <;>
      simp [wrapPost, List.filter_cons, one_div, h, ih]

/-- C7: confirmed. For every series the wrap-around expansion is, in
order: the points with phase above one half shifted down by one (in
original order), then all original points, then the points with phase at
most one half shifted up by one (in original order) — pure duplication
and relabelling with no value change; and on the input
`[(1/10, a), (6/10, b)]` it yields exactly
`[(-2/5, b), (1/10, a), (6/10, b), (11/10, a)]`. -/
theorem wrapAroundExpander_structure :
    (∀ l : List (ℚ × F),
      wrapExpand l
        = (l.filter (fun q => decide ((1 : ℚ)/2 < q.1))).map
              (fun q => (q.1 - 1, q.2))
            ++ l
            ++ (l.filter (fun q => decide (q.1 ≤ (1 : ℚ)/2))).map
                (fun q => (q.1 + 1, q.2))) ∧
    (∀ a b : F,
      wrapExpand [(1/10, a), (6/10, b)]
        = [(-(2/5), b), (1/10, a), (6/10, b), (11/10, a)]) := by
  constructor
  · intro l
    rw [wrapExpand, wrapPre_eq, wrapPost_eq]
  · intro a b
    norm_num [wrapExpand, wrapPre, wrapPost]

/-- Reduction of a mapped bin list relates each row to its bin. -/
lemma forall2_map_reduce (m : BinMethod) (merr : List F → F)
    (sigfit : List F → List F → F) :
    ∀ bins : List BinEmit,
      List.Forall₂
        (fun (r : BinRow) (b : BinEmit) =>
          r.saperr = merr b.bufs.w2 ∧ r.pdcerr = merr b.bufs.w4
            ∧ r.cbverr = merr b.bufs.w6 ∧ r.deterr = merr b.bufs.w8)
        (bins.map (reduceBin m merr sigfit)) bins := by
  intro bins
  induction bins with
  | nil => exact List.Forall₂.nil
  | cons b bs ih =>
    refine List.Forall₂.cons ?_ ih
    cases m <;> exact ⟨rfl, rfl, rfl, rfl⟩

/-- C8: confirmed. For every emitted bin and every channel, and for any
realisation of the external `mean_err`, the reported uncertainty is
`merr` applied to the full pre-reduction uncertainty buffer of that bin,
identically for the `mean`, `median` and `sigclip` branches: the
`median` branch uses no median-based error and the `sigclip` branch's
uncertainty is computed from the unclipped buffer. -/
theorem bin_uncertainty_uniform (m : BinMethod) (merr : List F → F)
    (sigfit : List F → List F → F) (nbins : ℕ) (ps : List PSample) :
    List.Forall₂
      (fun (r : BinRow) (b : BinEmit) =>
        r.saperr = merr b.bufs.w2 ∧ r.pdcerr = merr b.bufs.w4
          ∧ r.cbverr = merr b.bufs.w6 ∧ r.deterr = merr b.bufs.w8)
      (binTable m merr sigfit nbins ps) (binStage nbins ps) :=
  forall2_map_reduce m merr sigfit (binStage nbins ps)

/-- Every sorted tuple carries `saperr` in its `cbverr` slot
(source line 287 builds the tuple with `saperr` in slot 6). -/
lemma mem_sortStage_cbverr (period bjdref bjd0 : ℚ) (pt : PlotType)
    (rq : Bool) (c : ℚ) (l : List Sample) :
    ∀ s ∈ sortStage period bjdref bjd0 pt rq c l, s.cbverr = s.saperr := by
  intro s hs
  have hmem : s ∈ tupleList period bjdref bjd0 pt rq c l :=
    (List.perm_insertionSort phLE _).mem_iff.mp hs
  obtain ⟨x, _, rfl⟩ := List.mem_map.mp hmem
  rfl

/-- The CBV-uncertainty buffer `work6` tracks the SAP-uncertainty buffer
`work2` through the binning loop whenever every traversed sample carries
`saperr` in its `cbverr` slot. -/
lemma binRun_w6_eq_w2 (dt : ℚ) (l : List PSample) :
    ∀ (nb : ℕ) (buf : Bufs),
      (∀ s ∈ l, s.cbverr = s.saperr) → buf.w6 = buf.w2 →
      (∀ b ∈ (binRun dt l nb buf).1, b.bufs.w6 = b.bufs.w2) ∧
        (binRun dt l nb buf).2.2.w6 = (binRun dt l nb buf).2.2.w2 := by
  induction l with
  | nil =>
    intro nb buf _ hbuf
    exact ⟨fun b hb => absurd hb (by simp [binRun]), hbuf⟩
  | cons s rest ih =>
    intro nb buf hl hbuf
    have hl2 : ∀ t ∈ rest, t.cbverr = t.saperr :=
      fun t ht => hl t (List.mem_cons_of_mem s ht)
    rw [binRun_cons]
    by_cases h : outOfBin dt nb s.phase
    · simp only [h, if_true]
      have ihr := ih (nb + 1) emptyBufs hl2 rfl
      constructor
      · intro b hb
        rcases List.mem_append.mp hb with hb1 | hb2
        · by_cases he : buf.w1.isEmpty
          · rw [flushEmit, if_pos he] at hb1
            exact absurd hb1 (List.not_mem_nil b)
          · rw [flushEmit, if_neg he] at hb1
            rw [List.mem_singleton] at hb1
            subst hb1
            exact hbuf
        · exact ihr.1 b hb2
      · exact ihr.2
    · simp only [h, if_false, Bool.false_eq_true]
      refine ih nb (pushBuf buf s) hl2 ?_
      show buf.w6 ++ [s.cbverr] = buf.w2 ++ [s.saperr]
      rw [hbuf, hl s (List.mem_cons_self s rest)]

/-- Every emitted bin's `work6` buffer equals its `work2` buffer when
the input tuples carry `saperr` in the `cbverr` slot. -/
lemma binStage_w6_eq_w2 (nbins : ℕ) (ps : List PSample)
    (h : ∀ s ∈ ps, s.cbverr = s.saperr) :
    ∀ b ∈ binStage nbins ps, b.bufs.w6 = b.bufs.w2 := by
  cases ps with
  | nil =>
    intro b hb
    exact absurd hb (by simp [binStage, binStageFull])
  | cons s0 rest =>
    have h0 : s0.cbverr = s0.saperr := h s0 (List.mem_cons_self s0 rest)
    have hall : ∀ s ∈ (s0 :: rest) ++ [wrapPoint s0], s.cbverr = s.saperr := by
      intro s hs
      rcases List.mem_append.mp hs with h1 | h2
      · exact h s h1
      · rw [List.mem_singleton] at h2
        subst h2
        exact h0
    have hseed : (seedBufs s0).w6 = (seedBufs s0).w2 := by
      show [s0.cbverr] = [s0.saperr]
      rw [h0]
    exact (binRun_w6_eq_w2 (1/(nbins : ℚ)) ((s0 :: rest) ++ [wrapPoint s0]) 0
      (seedBufs s0) hall hseed).1

/-- C9: confirmed. The `cbverr` slot of every sorted tuple equals that
sample's SAP uncertainty (the sorted `cbverr3` column coincides with the
sorted `saperr3` column), and consequently every bin's CBV-uncertainty
buffer `work6` equals its SAP-uncertainty buffer `work2`, so the binned
CBV flux uncertainty is computed from SAP uncertainties. -/
theorem cbverr_carries_sap_uncertainty (period bjdref bjd0 : ℚ)
    (pt : PlotType) (rq : Bool) (c : ℚ) (l : List Sample) (nbins : ℕ) :
    ((sortStage period bjdref bjd0 pt rq c l).map (fun s => s.cbverr)
       = (sortStage period bjdref bjd0 pt rq c l).map (fun s => s.saperr)) ∧
    ((binStage nbins (sortStage period bjdref bjd0 pt rq c l)).map
          (fun b => b.bufs.w6)
       = (binStage nbins (sortStage period bjdref bjd0 pt rq c l)).map
            (fun b => b.bufs.w2)) := by
  have hmem := mem_sortStage_cbverr period bjdref bjd0 pt rq c l
  constructor
  · exact List.map_congr_left hmem
  · exact List.map_congr_left (binStage_w6_eq_w2 nbins _ hmem)

lemma divF_one (v : F) : divF 1 v = v := by
  cases v <;> simp [divF]

lemma divF_divF (c : ℚ) (v : F) : divF c (divF c v) = divF (c * c) v := by
  cases v <;> simp [divF, div_div]

lemma scaleSample_one (s : Sample) : scaleSample 1 s = s := by
  cases s
  simp [scaleSample, divF_one]

lemma toPS_scaleSample (period bjdref bjd0 c : ℚ) (s : Sample) :
    toPS period bjdref bjd0 (scaleSample c s)
      = scalePS c (toPS period bjdref bjd0 s) := rfl

/-- The tuple list at cadence factor `c` is the tuple list at factor `1`
with every channel divided by `c` (filtering happens before division, so
the retained rows coincide). -/
lemma tupleList_scale (period bjdref bjd0 : ℚ) (pt : PlotType) (rq : Bool)
    (c : ℚ) (l : List Sample) :
    tupleList period bjdref bjd0 pt rq c l
      = (tupleList period bjdref bjd0 pt rq 1 l).map (scalePS c) := by
  rw [tupleList, tupleList, filterStage, filterStage]
  simp only [List.map_map]
  apply List.map_congr_left
  intro x hx
  simp only [Function.comp_apply]
  rw [scaleSample_one, toPS_scaleSample]

/-- Sorting commutes with channel scaling (the sort key is the phase,
which scaling preserves). -/
lemma sortStage_scale (period bjdref bjd0 : ℚ) (pt : PlotType) (rq : Bool)
    (c : ℚ) (l : List Sample) :
    sortStage period bjdref bjd0 pt rq c l
      = (sortStage period bjdref bjd0 pt rq 1 l).map (scalePS c) := by
  rw [sortStage, sortStage, tupleList_scale]
  exact (List.map_insertionSort phLE phLE (scalePS c) _
    (fun a _ b _ => Iff.rfl)).symm

lemma flushEmit_scale (dt c : ℚ) (nb : ℕ) (buf : Bufs) :
    flushEmit dt nb (scaleBufs c buf)
      = (flushEmit dt nb buf).map (scaleEmit c) := by
  cases hw : buf.w1 with
  | nil => simp [flushEmit, scaleBufs, hw, scaleEmit]
  | cons a t => simp [flushEmit, scaleBufs, hw, scaleEmit]

lemma pushBuf_scale (c : ℚ) (buf : Bufs) (s : PSample) :
    pushBuf (scaleBufs c buf) (scalePS c s) = scaleBufs c (pushBuf buf s) := by
  simp [pushBuf, scaleBufs, scalePS]

/-- The binning loop commutes with channel scaling: bin routing depends
only on phases, which scaling preserves. -/
lemma binRun_scale (dt c : ℚ) (l : List PSample) :
    ∀ (nb : ℕ) (buf : Bufs),
      binRun dt (l.map (scalePS c)) nb (scaleBufs c buf)
        = ((binRun dt l nb buf).1.map (scaleEmit c),
           (binRun dt l nb buf).2.1, scaleBufs c (binRun dt l nb buf).2.2) := by
  induction l with
  | nil => intro nb buf; simp [binRun]
  | cons s rest ih =>
    intro nb buf
    rw [List.map_cons, binRun_cons, binRun_cons]
    have hph : (scalePS c s).phase = s.phase := rfl
    rw [hph]
    by_cases h : outOfBin dt nb s.phase
    · simp only [h, if_true]
      have ihr := ih (nb + 1) emptyBufs
      have hemp : scaleBufs c emptyBufs = emptyBufs := rfl
      rw [hemp] at ihr
      rw [ihr, flushEmit_scale]
      simp [List.map_append]
    · simp only [h, if_false, Bool.false_eq_true]
      rw [pushBuf_scale, ih nb (pushBuf buf s)]

/-- The binning stage commutes with channel scaling. -/
lemma binStage_scale (nbins : ℕ) (c : ℚ) (ps : List PSample) :
    binStage nbins (ps.map (scalePS c))
      = (binStage nbins ps).map (scaleEmit c) := by
  cases ps with
  | nil => rfl
  | cons s0 rest =>
    show (binRun (1/(nbins : ℚ))
        ((scalePS c s0 :: rest.map (scalePS c)) ++ [wrapPoint (scalePS c s0)])
        0 (seedBufs (scalePS c s0))).1 = _
    have hwrap : wrapPoint (scalePS c s0) = scalePS c (wrapPoint s0) := rfl
    have hseed : seedBufs (scalePS c s0) = scaleBufs c (seedBufs s0) := rfl
    have hlist : (scalePS c s0 :: rest.map (scalePS c))
          ++ [scalePS c (wrapPoint s0)]
        = ((s0 :: rest) ++ [wrapPoint s0]).map (scalePS c) := by
      simp
    rw [hwrap, hseed, hlist, binRun_scale]
    rfl

lemma somes_map_divF (c : ℚ) (l : List F) :
    somes (l.map (divF c)) = (somes l).map (fun x => x / c) := by
  induction l with
  | nil => rfl
  | cons v rest ih =>
    cases v with
    | none =>
      have h1 : ((none : F) :: rest).map (divF c) = none :: rest.map (divF c) := rfl
      have h2 : somes ((none : F) :: rest.map (divF c))
          = somes (rest.map (divF c)) := rfl
      have h3 : somes ((none : F) :: rest) = somes rest := rfl
      rw [h1, h2, h3, ih]
    | some x =>
      have h1 : ((some x : F) :: rest).map (divF c)
          = some (x / c) :: rest.map (divF c) := rfl
      have h2 : somes ((some (x / c) : F) :: rest.map (divF c))
          = (x / c) :: somes (rest.map (divF c)) := rfl
      have h3 : somes ((some x : F) :: rest) = x :: somes rest := rfl
      rw [h1, h2, h3, ih, List.map_cons]

lemma sum_map_div (xs : List ℚ) (c : ℚ) :
    (xs.map (fun x => x / c)).sum = xs.sum / c := by
  induction xs with
  | nil => simp
  | cons x xs ih => simp [ih, add_div]

/-- The mean over finite entries is homogeneous in the scaling of the
buffer. -/
lemma nanmean_map_divF (c : ℚ) (l : List F) :
    nanmean (l.map (divF c)) = divF c (nanmean l) := by
  rw [nanmean, nanmean, somes_map_divF]
  by_cases h : (somes l).length = 0
  · rw [List.length_map, if_pos h, if_pos h]
    rfl
  · rw [List.length_map, if_neg h, if_neg h, sum_map_div]
    simp [divF, div_right_comm]

/-- C10: confirmed. The flux and uncertainty columns are divided by the
cadence factor once at the filter stage (the unbinned SAP series equals
the retained raw values divided by `c`), and the binned output columns
are divided by the same factor again when the FOLDED table is assembled,
so for the `mean` reduction the FOLDED SAP column equals the binned
aggregate of the raw (undivided) pipeline divided by `c * c`, while the
unbinned series is divided only once. -/
theorem double_cadence_normalization (merr : List F → F)
    (sigfit : List F → List F → F) (nbins : ℕ) (pt : PlotType) (rq : Bool)
    (period bjdref bjd0 c : ℚ) (l : List Sample) :
    ((foldedTable .mean merr sigfit nbins c pt rq period bjdref bjd0 l).map
          (fun r => r.sap)
       = ((binTable .mean merr sigfit nbins
              (sortStage period bjdref bjd0 pt rq 1 l)).map
            (fun r => r.sap)).map (divF (c * c))) ∧
    ((filterStage pt rq c l).map (fun s => s.sap)
       = ((l.filter (keep pt rq)).map (fun s => s.sap)).map (divF c)) := by
  constructor
  · rw [foldedTable, sortStage_scale, binTable, binTable, binStage_scale]
    simp only [List.map_map]
    apply List.map_congr_left
    intro e he
    simp only [Function.comp_apply]
    show divF c (nanmean ((scaleEmit c e).bufs.w1))
        = divF (c * c) (nanmean e.bufs.w1)
    have hw1 : (scaleEmit c e).bufs.w1 = e.bufs.w1.map (divF c) := rfl
    rw [hw1, nanmean_map_divF, divF_divF]
  · rw [filterStage]
    simp only [List.map_map]
    apply List.map_congr_left
    intro x hx
    rfl

end Kepfold
